import Mathlib

/-!
Shallow embedding of RmlUi's `Source/Core/StyleSheetParser.cpp` (stylesheet
tokenizer, declaration reader, selector/rule state machine, specificity tree
builder and keyframes post-processor), together with proofs about the claims
of the specification.

Strings are modelled as `List Char`; the abstract byte stream is modelled as
the flat list of characters it yields.  The C++ parser touches the stream
only through `StyleSheetParser::ReadCharacter` (both `FindToken` and
`ReadProperties` go through it), and the buffered reader's refill edge cases
are written so that the produced character sequence does not depend on the
chunking; the embedding therefore works with the flat character list.
-/

/-- Embeds `StyleSheetParser::ReadCharacter` together with `FillBuffer`.
The first argument is the `comment` flag, the second the running
`line_number`, the third the remaining stream.  Returns the character found
(with the stream positioned after it, since every caller follows a
successful read with `parse_buffer_pos++`), paired with the updated line
counter; `none` means the stream ran out.  Faithful details kept from the
source: a `'\n'` increments the line counter and is never itself returned;
a `'/'` at end of stream is returned literally; inside a comment a `'*'`
consumes the following character while checking for `'/'` (so that
following character is neither re-examined as a comment terminator nor
counted if it is a newline); a `'*'` as the final stream character makes
the read fail, like any other unterminated comment. -/
def readCharAux : Bool → Nat → List Char → Option (Char × List Char) × Nat
  | _, line, [] => (none, line)
  | false, line, c :: rest =>
    if c = '\n' then readCharAux false (line + 1) rest
    else if c = '/' then
      match rest with
      | [] => (some ( '/' , []), line)
      | d :: rest2 =>
        if d = '*' then readCharAux true line rest2
        else (some ( '/' , d :: rest2), line)
    else (some (c, rest), line)
  | true, line, c :: rest =>
    if c = '\n' then readCharAux true (line + 1) rest
    else if c = '*' then
      match rest with
      | [] => (none, line)
      | d :: rest2 =>
        if d = '/' then readCharAux false line rest2
        else readCharAux true line rest2
    else readCharAux true line rest

/-- Wrapper: `ReadCharacter` starting outside of a comment, as each call site does. -/
def readChar (line : Nat) (input : List Char) : Option (Char × List Char) × Nat :=
  readCharAux false line input

theorem readCharAux_length (m : Bool) (line : Nat) (input : List Char) :
    ∀ {c : Char} {rest : List Char} {line2 : Nat},
      readCharAux m line input = (some (c, rest), line2) → rest.length < input.length := by
  induction m, line, input using readCharAux.induct with
  | case1 m line => intro c rest line2 h; simp [readCharAux] at h
  | case2 line rest ih =>
    intro c r l2 h
    cases rest with
    | nil => simp [readCharAux] at h
    | cons d t => simp only [readCharAux, if_pos rfl] at h; exact Nat.lt_succ_of_lt (ih h)
  | case3 line =>
    intro c r l2 h
    simp [readCharAux] at h
    simp [h.1.2]
  | case4 line rest2 hne ih =>
    intro c r l2 h
    simp only [readCharAux, if_neg (by decide : ¬ ( '/' : Char) = '\n'), if_pos rfl] at h
    exact Nat.lt_succ_of_lt (Nat.lt_succ_of_lt (ih h))
  | case5 line d rest2 hd =>
    intro c r l2 h
    simp [readCharAux, hd] at h
    simp [← h.1.2]
  | case6 line c rest hn hs =>
    intro c2 r l2 h
    cases rest with
    | nil =>
      simp [readCharAux, hn, hs] at h
      simp [h.1.2]
    | cons d t =>
      simp [readCharAux, hn, hs] at h
      simp [← h.1.2]
  | case7 line rest ih =>
    intro c r l2 h
    cases rest with
    | nil => simp [readCharAux] at h
    | cons d t => simp only [readCharAux, if_pos rfl] at h; exact Nat.lt_succ_of_lt (ih h)
  | case8 line =>
    intro c r l2 h
    simp [readCharAux] at h
  | case9 line rest2 hne ih =>
    intro c r l2 h
    simp only [readCharAux, if_neg (by decide : ¬ ( '*' : Char) = '\n'), if_pos rfl] at h
    exact Nat.lt_succ_of_lt (Nat.lt_succ_of_lt (ih h))
  | case10 line d rest2 hd hne ih =>
    intro c r l2 h
    simp only [readCharAux, if_neg (by decide : ¬ ( '*' : Char) = '\n'), if_pos rfl,
      if_neg hd] at h
    exact Nat.lt_succ_of_lt (Nat.lt_succ_of_lt (ih h))
  | case11 line c rest hn hs ih =>
    intro c2 r l2 h
    cases rest with
    | nil => simp [readCharAux, hn, hs] at h
    | cons d t =>
      simp only [readCharAux, if_neg hn, if_neg hs] at h
      exact Nat.lt_succ_of_lt (ih h)

/-- The sequence of logical characters `ReadCharacter` yields on a stream,
each paired with the value of `line_number` at the moment it is returned,
together with the final value of the line counter.  This is `readCharAux`
iterated to exhaustion, written as one structurally recursive function
(the equivalence is `logicalAux_eq_readCharAux` below); after every
returned character scanning resumes outside of a comment, exactly as at
the call sites of `ReadCharacter`. -/
def logicalAux : Bool → Nat → List Char → List (Char × Nat) × Nat
  | _, line, [] => ([], line)
  | false, line, c :: rest =>
    if c = '\n' then logicalAux false (line + 1) rest
    else if c = '/' then
      match rest with
      | [] => ([( '/' , line)], line)
      | d :: rest2 =>
        if d = '*' then logicalAux true line rest2
        else
          (( '/' , line) :: (logicalAux false line (d :: rest2)).1,
            (logicalAux false line (d :: rest2)).2)
    else ((c, line) :: (logicalAux false line rest).1, (logicalAux false line rest).2)
  | true, line, c :: rest =>
    if c = '\n' then logicalAux true (line + 1) rest
    else if c = '*' then
      match rest with
      | [] => ([], line)
      | d :: rest2 =>
        if d = '/' then logicalAux false line rest2
        else logicalAux true line rest2
    else logicalAux true line rest

theorem logicalAux_eq_readCharAux (m : Bool) (line : Nat) (input : List Char) :
    logicalAux m line input =
      match readCharAux m line input with
      | (none, l2) => ([], l2)
      | (some (c, rest), l2) =>
        ((c, l2) :: (logicalAux false l2 rest).1, (logicalAux false l2 rest).2) := by
  induction m, line, input using readCharAux.induct with
  | case1 m line => simp [readCharAux, logicalAux]
  | case2 line rest ih =>
    cases rest with
    | nil => simp [readCharAux, logicalAux]
    | cons d t => simp only [readCharAux, logicalAux, if_pos rfl]; exact ih
  | case3 line => simp [readCharAux, logicalAux]
  | case4 line rest2 hne ih =>
    simp only [readCharAux, logicalAux, if_neg (by decide : ¬ ( '/' : Char) = '\n'),
      if_pos rfl]
    exact ih
  | case5 line d rest2 hd => simp [readCharAux, logicalAux, hd]
  | case6 line c rest hn hs =>
    cases rest with
    | nil => simp [readCharAux, logicalAux, hn, hs]
    | cons d t => simp [readCharAux, logicalAux, hn, hs]
  | case7 line rest ih =>
    cases rest with
    | nil => simp [readCharAux, logicalAux]
    | cons d t => simp only [readCharAux, logicalAux, if_pos rfl]; exact ih
  | case8 line => simp [readCharAux, logicalAux]
  | case9 line rest2 hne ih =>
    simp only [readCharAux, logicalAux, if_neg (by decide : ¬ ( '*' : Char) = '\n'),
      if_pos rfl]
    exact ih
  | case10 line d rest2 hd hne ih =>
    simp only [readCharAux, logicalAux, if_neg (by decide : ¬ ( '*' : Char) = '\n'),
      if_pos rfl, if_neg hd]
    exact ih
  | case11 line c rest hn hs ih =>
    cases rest with
    | nil => simp [readCharAux, logicalAux, hn, hs]
    | cons d t =>
      simp only [readCharAux, logicalAux, if_neg hn, if_neg hs]
      exact ih

/-- A stream with no `'/'` and no `'\n'` passes through the reader
verbatim, with an unchanged line counter. -/
theorem logicalAux_clean (line : Nat) (input : List Char)
    (hs : ( '/' : Char) ∉ input) (hn : ( '\n' : Char) ∉ input) :
    logicalAux false line input = (input.map (fun c => (c, line)), line) := by
  induction input with
  | nil => simp [logicalAux]
  | cons c rest ih =>
    have h1 : ¬ c = '\n' := fun h => hn (h ▸ List.mem_cons_self c rest)
    have h2 : ¬ c = '/' := fun h => hs (h ▸ List.mem_cons_self c rest)
    have ih2 := ih (fun h => hs (List.mem_cons_of_mem c h))
      (fun h => hn (List.mem_cons_of_mem c h))
    cases rest with
    | nil => simp [logicalAux, h1, h2]
    | cons d t => simp [logicalAux, h1, h2, ih2]

/-- Modelled from the spec: the whitespace characters trimmed by
`StringUtilities::StripWhitespace` (that helper is not among the sources
under scrutiny). -/
def isSpaceChar (c : Char) : Bool := c = ' ' || c = '\t' || c = '\n' || c = '\r'

/-- Modelled from the spec: `StringUtilities::StripWhitespace` trims
leading and trailing whitespace. -/
def stripWhitespace (s : List Char) : List Char :=
  ((s.dropWhile isSpaceChar).reverse.dropWhile isSpaceChar).reverse

/-- Modelled from the spec: `StringUtilities::ExpandString` splits a string
on the given delimiter into whitespace-trimmed entries, dropping entries
that are empty after trimming ("comma/space-expandable list"). -/
def expandString (delim : Char) (s : List Char) : List (List Char) :=
  ((s.splitOn delim).map stripWhitespace).filter (fun e => !e.isEmpty)

/-- Modelled from the spec: a `PropertyDictionary` is a mapping from
property names to (here: textual) values, importable into another
dictionary with overwriting of existing keys.  Keyed association list;
`setProp` overwrites in place or appends. -/
abbrev PropsDict := List (List Char × List Char)

/-- Modelled from the spec: setting one property, overwriting an existing
entry with the same name. -/
def setProp (d : PropsDict) (k v : List Char) : PropsDict :=
  if d.any (fun e => e.1 = k) then
    d.map (fun e => if e.1 = k then (k, v) else e)
  else d ++ [(k, v)]

/-- Modelled from the spec: `PropertyDictionary::Import`, merging `src`
into `dst` with `src` overwriting existing keys. -/
def importDict (dst src : PropsDict) : PropsDict :=
  src.foldl (fun d e => setProp d e.1 e.2) dst

/-- One constructor per `Log::Message` call site in `StyleSheetParser.cpp`,
carrying the dynamic data of the message and the reported line number. -/
inductive Warning where
  | nameNoValue (name : List Char) (line : Nat)
  | endOfRuleName (name : List Char) (line : Nat)
  | declSyntaxError (name value : List Char) (line : Nat)
  | endOfRuleValue (name value : List Char) (line : Nat)
  | invalidDecl (name value : List Char) (line : Nat)
  | invalidKeyframesIdentifier (identifier : List Char) (line : Nat)
  | invalidKeyframesRules (rules : List Char) (line : Nat)
  | invalidCharGlobal (c : Char) (line : Nat)
  | invalidCharKeyframesIdentifier (c : Char) (line : Nat)
  | invalidCharKeyframesRules (c : Char) (line : Nat)
deriving DecidableEq, Repr

/-- The external collaborator
`StyleSheetSpecification::ParsePropertyDeclaration(properties, name, value, ...)`:
given the current dictionary, a property name and a value text it returns a
success flag and the updated dictionary (the diagnostic-only source-name
and line arguments are dropped). -/
abbrev PDecl := PropsDict → List Char → List Char → Bool × PropsDict

/-- A `PDecl` instance that records every forwarded declaration verbatim,
used to observe exactly which name/value texts `ReadProperties` forwards. -/
def pdRecord : PDecl := fun d n v => (true, d ++ [(n, v)])

/-- The states of the declaration reader `StyleSheetParser::ReadProperties`. -/
inductive RPState where
  | NAME
  | VALUE
  | QUOTE
deriving DecidableEq, Repr

/-- Embeds `StyleSheetParser::ReadProperties`, reading from the logical
character stream (`ReadCharacter` is its only access to the stream).
Arguments after `pd` and `lineEnd` (the final line counter, reported by
the warning emitted when the stream runs out mid-declaration): current
state, accumulated `name` and `value`, `previous_character`, the
dictionary built so far, the warnings emitted so far, and the remaining
stream.  Returns the source's return flag, the dictionary, the warnings,
the remaining stream after the consumed closing `'}'`, and the line
counter at return. -/
def readPropsL (pd : PDecl) (lineEnd : Nat) :
    RPState → List Char → List Char → Char → PropsDict → List Warning →
    List (Char × Nat) → Bool × PropsDict × List Warning × List (Char × Nat) × Nat
  | _, name, value, _, props, log, [] =>
    (true, props,
      (if name ≠ [] ∨ value ≠ [] then log ++ [Warning.invalidDecl name value lineEnd]
        else log),
      [], lineEnd)
  | RPState.NAME, name, value, _, props, log, (c, n) :: rest =>
    if c = ';' then
      let name2 := stripWhitespace name
      if name2 ≠ [] then
        readPropsL pd lineEnd RPState.NAME [] value c props
          (log ++ [Warning.nameNoValue name2 n]) rest
      else
        readPropsL pd lineEnd RPState.NAME name2 value c props log rest
    else if c = '}' then
      let name2 := stripWhitespace name
      (true, props,
        (if name2 ≠ [] then log ++ [Warning.endOfRuleName name2 n] else log), rest, n)
    else if c = ':' then
      readPropsL pd lineEnd RPState.VALUE (stripWhitespace name) value c props log rest
    else
      readPropsL pd lineEnd RPState.NAME (name ++ [c]) value c props log rest
  | RPState.VALUE, name, value, _, props, log, (c, n) :: rest =>
    if c = ';' then
      let value2 := stripWhitespace value
      let r := pd props name value2
      readPropsL pd lineEnd RPState.NAME [] [] c r.2
        (if r.1 then log else log ++ [Warning.declSyntaxError name value2 n]) rest
    else if c = '}' then
      (true, props, log ++ [Warning.endOfRuleValue name value n], rest, n)
    else
      readPropsL pd lineEnd (if c = '"' then RPState.QUOTE else RPState.VALUE)
        name (value ++ [c]) c props log rest
  | RPState.QUOTE, name, value, prev, props, log, (c, n) :: rest =>
    readPropsL pd lineEnd
      (if c = '"' ∧ prev ≠ '/' then RPState.VALUE else RPState.QUOTE)
      name (value ++ [c]) c props log rest

/-- Reading properties only ever consumes stream input. -/
theorem readPropsL_length (pd : PDecl) (lineEnd : Nat) (st : RPState)
    (name value : List Char) (prev : Char) (props : PropsDict) (log : List Warning)
    (input : List (Char × Nat)) :
    (readPropsL pd lineEnd st name value prev props log input).2.2.2.1.length ≤
      input.length := by
  induction input generalizing st name value prev props log with
  | nil => cases st <;> simp [readPropsL]
  | cons p rest ih =>
    obtain ⟨c, _n⟩ := p
    cases st with
    | NAME =>
      simp only [readPropsL]
      split
      · split
        · exact Nat.le_succ_of_le (ih ..)
        · exact Nat.le_succ_of_le (ih ..)
      · split
        · simp
        · split
          · exact Nat.le_succ_of_le (ih ..)
          · exact Nat.le_succ_of_le (ih ..)
    | VALUE =>
      simp only [readPropsL]
      split
      · exact Nat.le_succ_of_le (ih ..)
      · split
        · simp
        · exact Nat.le_succ_of_le (ih ..)
    | QUOTE =>
      simp only [readPropsL]
      exact Nat.le_succ_of_le (ih ..)

/-- Fact: `ReadProperties` returns `true` on every possible input: the source
has no `return false` statement — both the `'}'` exits and the
stream-exhaustion exit return `true`. -/
theorem readPropsL_true (pd : PDecl) (lineEnd : Nat) (st : RPState)
    (name value : List Char) (prev : Char) (props : PropsDict) (log : List Warning)
    (input : List (Char × Nat)) :
    (readPropsL pd lineEnd st name value prev props log input).1 = true := by
  induction input generalizing st name value prev props log with
  | nil => cases st <;> simp [readPropsL]
  | cons p rest ih =>
    obtain ⟨c, _n⟩ := p
    cases st with
    | NAME =>
      simp only [readPropsL]
      split
      · split
        · exact ih ..
        · exact ih ..
      · split
        · simp
        · split
          · exact ih ..
          · exact ih ..
    | VALUE =>
      simp only [readPropsL]
      split
      · exact ih ..
      · split
        · simp
        · exact ih ..
    | QUOTE =>
      simp only [readPropsL]
      exact ih ..

/-- Embeds `FindToken` over the logical character stream, with `remove_token`
true as at its only call site: accumulates non-token characters into the
returned buffer, consumes the first token character and returns it with
the line counter at that point; `none` when the stream runs out (the
caller then discards the buffer, as the source does). -/
def findTokenL (tokens : List Char) :
    List (Char × Nat) → Option (List Char × Char × Nat × List (Char × Nat))
  | [] => none
  | (c, n) :: rest =>
    if c ∈ tokens then some ([], c, n, rest)
    else
      match findTokenL tokens rest with
      | none => none
      | some (buf, tok, n2, rest2) => some (c :: buf, tok, n2, rest2)

theorem findTokenL_length (tokens : List Char) (input : List (Char × Nat)) :
    ∀ {buf : List Char} {tok : Char} {n : Nat} {rest : List (Char × Nat)},
      findTokenL tokens input = some (buf, tok, n, rest) → rest.length < input.length := by
  induction input with
  | nil => intro buf tok n rest h; simp [findTokenL] at h
  | cons p t ih =>
    intro buf tok n rest h
    obtain ⟨c, m⟩ := p
    rw [findTokenL] at h
    split at h
    · simp only [Option.some.injEq, Prod.mk.injEq] at h
      obtain ⟨-, -, -, h4⟩ := h
      simp [← h4]
    · split at h
      · exact absurd h (by simp)
      · next b2 t2 n2 r2 heq =>
        simp only [Option.some.injEq, Prod.mk.injEq] at h
        obtain ⟨-, -, -, h4⟩ := h
        subst h4
        exact Nat.lt_succ_of_lt (ih heq)

/-- Embeds the file-static `IsValidIdentifier`: nonempty, only
alphanumerics, `'-'` and `'_'`. -/
def isValidIdentifier (s : List Char) : Bool :=
  !s.isEmpty && s.all (fun c =>
    ( 'a' ≤ c && c ≤ 'z' ) || ( 'A' ≤ c && c ≤ 'Z' ) ||
    ( '0' ≤ c && c ≤ '9' ) || c = '-' || c = '_' )

/-- Value of a digit run, most significant first. -/
def digitsToNat (ds : List Char) : Nat := ds.foldl (fun a c => a * 10 + (c.toNat - 48)) 0

/-- Embeds the `%f` conversion of `sscanf(rule, "%f%%%n", ...)`: parses a
decimal floating-point prefix (optional sign, digits with an optional
fractional part, optional decimal exponent) and returns its exact rational
value together with the number of characters consumed; `none` when no
valid prefix exists.  (Hexadecimal floats, infinities and NaNs are not
modelled; no claim involves them, and the [0,100] range guard in
`ParseKeyframeBlock` rejects non-finite values anyway.) -/
def scanFloat (s : List Char) : Option (ℚ × Nat) :=
  let sg : ℚ × List Char × Nat :=
    match s with
    | '+' :: t => (1, t, 1)
    | '-' :: t => (-1, t, 1)
    | _ => (1, s, 0)
  let ip := sg.2.1.takeWhile Char.isDigit
  let s2 := sg.2.1.drop ip.length
  let fr : List Char × List Char × Nat :=
    match s2 with
    | '.' :: t =>
      let f := t.takeWhile Char.isDigit
      (f, t.drop f.length, f.length + 1)
    | _ => ([], s2, 0)
  if ip.length + fr.1.length = 0 then none
  else
    let mant : ℚ :=
      sg.1 * ((digitsToNat ip : ℚ) + (digitsToNat fr.1 : ℚ) / (10 : ℚ) ^ fr.1.length)
    let base := sg.2.2 + ip.length + fr.2.2
    match fr.2.1 with
    | e :: t =>
      if e = 'e' ∨ e = 'E' then
        let eg : Int × List Char × Nat :=
          match t with
          | '+' :: t2 => (1, t2, 1)
          | '-' :: t2 => (-1, t2, 1)
          | _ => (1, t, 0)
        let ed := eg.2.1.takeWhile Char.isDigit
        if ed.length = 0 then some (mant, base)
        else some (mant * (10 : ℚ) ^ (eg.1 * (digitsToNat ed : Int)), base + 1 + eg.2.2 + ed.length)
      else some (mant, base)
    | [] => some (mant, base)

/-- The combined `sscanf(rule, "%f%%%n", &value, &count) == 1` and
`count > 0` test from `ParseKeyframeBlock`: `%f` must convert, the literal
`'%'` must match directly after the converted prefix (only then does `%n`
store a positive count), and anything following the `'%'` is ignored. -/
def parsePercent (s : List Char) : Option ℚ :=
  match scanFloat s with
  | none => none
  | some (v, k) =>
    match s.drop k with
    | c :: _ => if c = '%' then some v else none
    | [] => none

/-- Embeds `String::ToLower`, ASCII case folding. -/
def charToLower (c : Char) : Char :=
  if 'A' ≤ c ∧ c ≤ 'Z' then Char.ofNat (c.toNat + 32) else c

/-- One iteration of the time-selector loop of `ParseKeyframeBlock`
(after lowercasing): `from` pushes `0`, `to` pushes `1`, a percentage
`p%` with `0 ≤ p ≤ 100` pushes `0.01 * p` (exact here, where the source
multiplies by the float `0.01f`); anything else pushes nothing. -/
def ruleValue (rule : List Char) : Option ℚ :=
  let r := rule.map charToLower
  if r = "from".data then some 0
  else if r = "to".data then some 1
  else
    match parsePercent r with
    | some v => if 0 ≤ v ∧ v ≤ 100 then some ((1 : ℚ) / 100 * v) else none
    | none => none

/-- The `rule_values` vector built by `ParseKeyframeBlock` from the rule
text: `ExpandString` (default `','` delimiter), then the selector loop. -/
def ruleValues (rules : List Char) : List ℚ :=
  (expandString ',' rules).filterMap ruleValue

/-- Embeds `KeyframeBlock`, with the source's `float` time as an exact
rational. -/
structure KeyframeBlock where
  normalized_time : ℚ
  properties : PropsDict
deriving DecidableEq, Repr

/-- Embeds `Keyframes`: the block list plus the property-name list filled
in by `PostprocessKeyframes`. -/
structure Keyframes where
  blocks : List KeyframeBlock
  property_names : List (List Char)
deriving DecidableEq, Repr

/-- The `KeyframesMap`, as an association list from sequence name to sequence. -/
abbrev KeyframesMap := List (List Char × Keyframes)

/-- Reading `keyframes_map[identifier]`: the stored sequence, or a
default-constructed one when the name is absent. -/
def kfFind (m : KeyframesMap) (k : List Char) : Keyframes :=
  match m.find? (fun e => e.1 = k) with
  | some e => e.2
  | none => ⟨[], []⟩

/-- Writing through `keyframes_map[identifier]`: update in place, or
insert the entry if the name was absent. -/
def kfSet (m : KeyframesMap) (k : List Char) (v : Keyframes) : KeyframesMap :=
  if m.any (fun e => e.1 = k) then m.map (fun e => if e.1 = k then (k, v) else e)
  else m ++ [(k, v)]

/-- Embeds `Math::AbsoluteValue` on the model's exact rationals. -/
def ratAbs (q : ℚ) : ℚ := if q < 0 then -q else q

/-- The duplicate-offset test of `ParseKeyframeBlock`:
`AbsoluteValue(keyframe_block.normalized_time - selector) < 0.0001f`
(tolerance taken as the exact `1/10000`). -/
def nearTime (a b : ℚ) : Bool := ratAbs (a - b) < 1 / 10000

/-- The per-selector body of the merge loop of `ParseKeyframeBlock`: find
the first block within tolerance of `selector`; push a fresh block at
`selector` when there is none, otherwise reset the found block's
dictionary to an empty one; then import the parsed declarations — so the
block ends up holding exactly the freshly imported declarations. -/
def mergeKeyframeSelector (props : PropsDict) :
    List KeyframeBlock → ℚ → List KeyframeBlock
  | [], t => [⟨t, importDict [] props⟩]
  | b :: bs, t =>
    if nearTime b.normalized_time t then
      ⟨b.normalized_time, importDict [] props⟩ :: bs
    else b :: mergeKeyframeSelector props bs t

/-- Embeds `StyleSheetParser::ParseKeyframeBlock`: returns the source's
return flag, the updated keyframes map, and the warnings emitted (`line`
is the `line_number` those warnings report). -/
def parseKeyframeBlock (m : KeyframesMap) (identifier rules : List Char)
    (props : PropsDict) (line : Nat) : Bool × KeyframesMap × List Warning :=
  if !isValidIdentifier identifier then
    (false, m, [Warning.invalidKeyframesIdentifier identifier line])
  else if props.length = 0 then (true, m, [])
  else
    let rule_values := ruleValues rules
    if rule_values.isEmpty then
      (false, m, [Warning.invalidKeyframesRules rules line])
    else
      let kf := kfFind m identifier
      let blocks := rule_values.foldl (mergeKeyframeSelector props) kf.blocks
      (true, kfSet m identifier ⟨blocks, kf.property_names⟩, [])

/-- Embeds `std::unique` on the tail of a run: drops elements equal to the last
kept one, keeping the first element of each run of adjacent equals. -/
def uniqueAdjacentFrom [DecidableEq α] (a : α) : List α → List α
  | [] => []
  | b :: rest =>
    if a = b then uniqueAdjacentFrom a rest else b :: uniqueAdjacentFrom b rest

/-- Embeds `std::unique` followed by `erase`: removes the later of each pair of
adjacent equal elements. -/
def uniqueAdjacent [DecidableEq α] : List α → List α
  | [] => []
  | a :: rest => a :: uniqueAdjacentFrom a rest

/-- The comparator of the `std::sort` call on blocks in
`PostprocessKeyframes` (`a.normalized_time < b.normalized_time`), taken
reflexively so that its sorts are the usual non-strict ones; block times
are pairwise distinct at every call site (duplicates are merged at
insertion), where every correct sort produces the same list as the stable
`List.insertionSort` used in the embedding. -/
def timeLE (a b : KeyframeBlock) : Prop := a.normalized_time ≤ b.normalized_time

instance : DecidableRel timeLE :=
  fun a b => inferInstanceAs (Decidable (a.normalized_time ≤ b.normalized_time))

instance : IsTotal KeyframeBlock timeLE := ⟨fun a b => le_total a.normalized_time b.normalized_time⟩

instance : IsTrans KeyframeBlock timeLE := ⟨fun _ _ _ => le_trans⟩

/-- Lexicographic order on the property names, for the `std::sort` call
on `property_names`. -/
def nameLE (a b : List Char) : Prop := a ≤ b

instance : DecidableRel nameLE := fun a b => inferInstanceAs (Decidable (a ≤ b))

instance : IsTotal (List Char) nameLE := ⟨fun a b => le_total a b⟩

instance : IsTrans (List Char) nameLE := ⟨fun _ _ _ => le_trans⟩

instance : IsAntisymm (List Char) nameLE := ⟨fun _ _ => le_antisymm⟩

/-- The body of `PostprocessKeyframes` for one sequence: sort the blocks
by normalized time, append every property name of every block to
`property_names`, sort that list and erase adjacent duplicates. -/
def postprocessSeq (k : Keyframes) : Keyframes :=
  let blocks := k.blocks.insertionSort timeLE
  let names :=
    k.property_names ++ (blocks.map (fun b => b.properties.map Prod.fst)).flatten
  ⟨blocks, uniqueAdjacent (names.insertionSort nameLE)⟩

/-- Embeds `PostprocessKeyframes` over the whole keyframes map. -/
def postprocessKeyframes (m : KeyframesMap) : KeyframesMap :=
  m.map (fun e => (e.1, postprocessSeq e.2))

/-- The node kinds of `StyleSheetNode` used during tree descent. -/
inductive NodeKind where
  | TAG
  | ID
  | CLASS
  | PSEUDO_CLASS
  | STRUCTURAL_PSEUDO_CLASS
deriving DecidableEq, Repr

/-- The component scanner of `ImportProperties`: each component starts at
the current index (its leading character is taken unconditionally, so a
delimiter starts a new component) and extends until the next `'#'`, `'.'`
or `':'`.  `cur` holds the reversed run of the component being read. -/
def splitComponentsAux (cur : List Char) : List Char → List (List Char)
  | [] => [cur.reverse]
  | d :: rest =>
    if d = '#' ∨ d = '.' ∨ d = ':' then cur.reverse :: splitComponentsAux [d] rest
    else splitComponentsAux (d :: cur) rest

/-- The component list of one compound selector (the scanning while-loop
of `ImportProperties`). -/
def splitComponents : List Char → List (List Char)
  | [] => []
  | c :: rest => splitComponentsAux [c] rest

/-- The decomposition of one compound selector, as accumulated by the
component loop of `ImportProperties`: tag, id, and the three component
lists in order of appearance.  `isStruct` is the external collaborator
`StyleSheetFactory::GetSelector(name) != NULL`. -/
structure CompoundParts where
  tag : List Char
  id : List Char
  classes : List (List Char)
  pseudo_classes : List (List Char)
  structural_pseudo_classes : List (List Char)
deriving DecidableEq, Repr

/-- Classifying the scanned components of one compound selector by their
leading character, as the switch in `ImportProperties` does. -/
def compoundParts (isStruct : List Char → Bool) (name : List Char) : CompoundParts :=
  (splitComponents name).foldl
    (fun p ident =>
      match ident with
      | [] => p
      | c :: t =>
        if c = '#' then { p with id := t }
        else if c = '.' then { p with classes := p.classes ++ [t] }
        else if c = ':' then
          if isStruct t then
            { p with structural_pseudo_classes := p.structural_pseudo_classes ++ [t] }
          else { p with pseudo_classes := p.pseudo_classes ++ [t] }
        else { p with tag := ident })
    ⟨[], [], [], [], []⟩

/-- The tree-descent key sequence of one compound selector: tag node
first (always, even when empty), then id when present, then the classes,
structural pseudo-classes and pseudo-classes, each list sorted. -/
def compoundPath (isStruct : List Char → Bool) (name : List Char) :
    List (NodeKind × List Char) :=
  let p := compoundParts isStruct name
  (NodeKind.TAG, p.tag) ::
    ((if p.id.isEmpty then [] else [(NodeKind.ID, p.id)]) ++
      (p.classes.insertionSort nameLE).map (fun c => (NodeKind.CLASS, c)) ++
      (p.structural_pseudo_classes.insertionSort nameLE).map
        (fun c => (NodeKind.STRUCTURAL_PSEUDO_CLASS, c)) ++
      (p.pseudo_classes.insertionSort nameLE).map (fun c => (NodeKind.PSEUDO_CLASS, c)))

/-- Modelled from the spec: a `StyleSheetNode` holds the properties
attached directly at the node — per property name a (value, specificity)
pair — and its children, uniquely keyed by (kind, name). -/
inductive STree where
  | mk (props : List (List Char × List Char × Nat))
    (children : List ((NodeKind × List Char) × STree))

def STree.props : STree → List (List Char × List Char × Nat)
  | STree.mk p _ => p

def STree.children : STree → List ((NodeKind × List Char) × STree)
  | STree.mk _ c => c

/-- Modelled from the spec: recording one declaration at a node —
overwriting an existing entry for the same property unless that entry has
strictly higher specificity (equal specificity: the later declaration
wins). -/
def setNodeProp (np : List (List Char × List Char × Nat)) (k v : List Char)
    (sp : Nat) : List (List Char × List Char × Nat) :=
  if np.any (fun e => e.1 = k) then
    np.map (fun e => if e.1 = k then (if e.2.2 ≤ sp then (k, v, sp) else e) else e)
  else np ++ [(k, v, sp)]

/-- Modelled from the spec: `StyleSheetNode::ImportProperties`, merging a
parsed dictionary into the node's own properties at the given
specificity. -/
def nodeImport (np : List (List Char × List Char × Nat)) (props : PropsDict)
    (sp : Nat) : List (List Char × List Char × Nat) :=
  props.foldl (fun d e => setNodeProp d e.1 e.2 sp) np

/-- Modelled from the spec: `StyleSheetNode::GetChildNode` walked over a
whole key path (get-or-create at each step), followed by
`ImportProperties` at the final leaf.  Children are uniquely keyed, so
updating every child with the matching key updates the one child. -/
def insertAtPath : List (NodeKind × List Char) → PropsDict → Nat → STree → STree
  | [], props, sp, STree.mk np ch => STree.mk (nodeImport np props sp) ch
  | key :: rest, props, sp, STree.mk np ch =>
    if ch.any (fun c => c.1 = key) then
      STree.mk np
        (ch.map (fun c => if c.1 = key then (c.1, insertAtPath rest props sp c.2) else c))
    else
      STree.mk np (ch ++ [(key, insertAtPath rest props sp (STree.mk [] []))])

/-- Looking up the node at a key path, when present. -/
def lookupPath : STree → List (NodeKind × List Char) → Option STree
  | t, [] => some t
  | t, key :: rest =>
    match t.children.find? (fun c => c.1 = key) with
    | some c => lookupPath c.2 rest
    | none => none

/-- Embeds `StyleSheetParser::ImportProperties`: the selector list text is
split on spaces into compound selectors; each contributes its descent
keys in order, and the properties are merged at the final leaf with the
rule's specificity. -/
def importProperties (isStruct : List Char → Bool) (node : STree)
    (names : List Char) (props : PropsDict) (sp : Nat) : STree :=
  insertAtPath
    ((expandString ' ' names).flatMap (compoundPath isStruct)) props sp node

/-- The states of the rule-parser state machine in
`StyleSheetParser::Parse`. -/
inductive PState where
  | Global
  | KeyframesIdentifier
  | KeyframesRules
  | Invalid
deriving DecidableEq, Repr

/-- Modelled from the spec: the at-rule keyword constant `KEYFRAMES`
("the literal at-rule keyword"; its definition lies outside the sources
under scrutiny). -/
def KEYFRAMES : List Char := "keyframes".data

/-- Embeds the token loop of `StyleSheetParser::Parse` over the logical
character stream.  Arguments: the two external collaborators, the final
line counter, then the current state, the current
`keyframes_identifier`, the running `rule_count`, the style tree being
built, the keyframes map, the warnings so far, and the remaining stream.
One iteration per `FindToken` result; at the sites where a transition
sets the `Invalid` state the source breaks out of both loops, so the
embedding returns immediately there (the `Invalid` match arm itself is
unreachable). -/
def parseLoop (pd : PDecl) (isStruct : List Char → Bool) (lineEnd : Nat) :
    PState → List Char → Nat → STree → KeyframesMap → List Warning →
    List (Char × Nat) → Nat × STree × KeyframesMap × List Warning
  | st, ident, cnt, tree, kfs, log, input =>
    match hft : findTokenL [ '{' , '@' , '}' ] input with
    | none => (cnt, tree, kfs, log)
    | some (pre, tok, n, rest) =>
      match st with
      | PState.Invalid => (cnt, tree, kfs, log)
      | PState.Global =>
        if tok = '{' then
          let r := readPropsL pd lineEnd RPState.NAME [] [] (Char.ofNat 0) [] log rest
          if r.1 then
            let names := expandString ',' pre
            let tree2 :=
              names.foldl (fun t nm => importProperties isStruct t nm r.2.1 cnt) tree
            parseLoop pd isStruct lineEnd PState.Global ident (cnt + 1) tree2 kfs
              r.2.2.1 r.2.2.2.1
          else
            parseLoop pd isStruct lineEnd PState.Global ident cnt tree kfs
              r.2.2.1 r.2.2.2.1
        else if tok = '@' then
          parseLoop pd isStruct lineEnd PState.KeyframesIdentifier ident cnt tree kfs
            log rest
        else
          parseLoop pd isStruct lineEnd PState.Global ident cnt tree kfs
            (log ++ [Warning.invalidCharGlobal tok n]) rest
      | PState.KeyframesIdentifier =>
        if tok = '{' then
          let ident2 :=
            if pre.take KEYFRAMES.length = KEYFRAMES then
              stripWhitespace (pre.drop KEYFRAMES.length)
            else []
          parseLoop pd isStruct lineEnd PState.KeyframesRules ident2 cnt tree kfs log rest
        else
          (cnt, tree, kfs, log ++ [Warning.invalidCharKeyframesIdentifier tok n])
      | PState.KeyframesRules =>
        if tok = '{' then
          let r := readPropsL pd lineEnd RPState.NAME [] [] (Char.ofNat 0) [] log rest
          if r.1 then
            let kb := parseKeyframeBlock kfs ident pre r.2.1 r.2.2.2.2
            parseLoop pd isStruct lineEnd PState.KeyframesRules ident cnt tree kb.2.1
              (r.2.2.1 ++ kb.2.2) r.2.2.2.1
          else
            parseLoop pd isStruct lineEnd PState.KeyframesRules ident cnt tree kfs
              r.2.2.1 r.2.2.2.1
        else if tok = '}' then
          parseLoop pd isStruct lineEnd PState.Global ident cnt tree kfs log rest
        else
          (cnt, tree, kfs, log ++ [Warning.invalidCharKeyframesRules tok n])
termination_by _ _ _ _ _ _ input => input.length
decreasing_by
  all_goals
    first
      | exact findTokenL_length _ _ hft
      | exact lt_of_le_of_lt (readPropsL_length ..) (findTokenL_length _ _ hft)

/-- Embeds `StyleSheetParser::Parse`: build the logical character stream
of the input, run the token loop from the `Global` state with
`rule_count = 0`, and post-process the keyframes map exactly once at the
end.  Returns the rule count, the tree, the finalized keyframes map and
the warnings. -/
def parseStyleSheet (pd : PDecl) (isStruct : List Char → Bool) (node : STree)
    (kfs : KeyframesMap) (input : List Char) :
    Nat × STree × KeyframesMap × List Warning :=
  let L := logicalAux false 0 input
  let r := parseLoop pd isStruct L.2 PState.Global [] 0 node kfs [] L.1
  (r.1, r.2.1, postprocessKeyframes r.2.2.1, r.2.2.2)

/-- C8: `ReadCharacter` is claimed to return the next logical character,
skipping every `/* ... */` comment and counting every `'\n'`.
Counter-evaluation: inside a comment the scanner consumes two characters
for every `'*'` it meets (the lookahead target is never re-examined), so
in `"/***/x"` the terminating `"*/"` is missed — the rest of the stream
is treated as an unterminated comment and nothing is ever returned,
where the claim promises `'x'`; likewise the newline in `"/* *\n*/a"` is
consumed as lookahead and never counted (final line counter 0, not 1).
The well-formed neighbour `"/**/x"` is skipped correctly. -/
theorem claim_C8_comment_scanner_divergence :
    readCharAux false 0 ("/***/x".data) = (none, 0) ∧
    logicalAux false 0 ("/***/x".data) = ([], 0) ∧
    readCharAux false 0 ("/**/x".data) = (some ( 'x' , []), 0) ∧
    logicalAux false 0 ("/* *\n*/a".data) = ([( 'a' , 0)], 0) :=
  ⟨by decide, by decide, by decide, by decide⟩

/-- C9 counterexample: the claimed equivalence "`ParseKeyframeBlock`
returns false iff the identifier is invalid or no time selector parses"
fails when the property dictionary is empty: with the valid identifier
`k`, the unparseable rule text `xyz` and an empty dictionary the source
returns `true` (the empty-dictionary exit precedes rule parsing), while
the claimed right-hand side holds. -/
theorem claim_C9_counterexample :
    ¬ (((parseKeyframeBlock [] ("k".data) ("xyz".data) [] 0).1 = false) ↔
      (¬ isValidIdentifier ("k".data) = true ∨ ruleValues ("xyz".data) = [])) := by
  decide

/-- C9 (amended): `ParseKeyframeBlock` returns false iff the identifier
is invalid, or the dictionary is nonempty and no time selector parses to
a valid value; whenever it returns false the keyframes map is unchanged
(no sequence entry is created), and a valid identifier with an empty
dictionary returns true with the map unchanged — even when the rule list
is unparseable. -/
theorem claim_C9_parse_keyframe_block_contract (m : KeyframesMap)
    (id rules : List Char) (props : PropsDict) (line : Nat) :
    ((parseKeyframeBlock m id rules props line).1 = false ↔
      (isValidIdentifier id = false ∨ (props ≠ [] ∧ ruleValues rules = []))) ∧
    ((parseKeyframeBlock m id rules props line).1 = false →
      (parseKeyframeBlock m id rules props line).2.1 = m) ∧
    (isValidIdentifier id = true → props = [] →
      parseKeyframeBlock m id rules props line = (true, m, [])) := by
  unfold parseKeyframeBlock
  by_cases hv : isValidIdentifier id
  · by_cases hp : props = []
    · subst hp
      simp [hv]
    · have hlen : ¬ props.length = 0 := by
        simpa [List.length_eq_zero] using hp
      by_cases hr : ruleValues rules = []
      · simp [hv, hlen, hp, hr]
      · simp [hv, hlen, hp, hr, List.isEmpty_iff]
  · simp [hv]

/-- C9 witness: the amended contract applied at the inputs of the
counterexample — valid identifier, empty dictionary, unparseable rules,
return `true` with the map untouched. -/
theorem claim_C9_parse_keyframe_block_contract_witness :
    isValidIdentifier ("k".data) = true ∧
    parseKeyframeBlock [] ("k".data) ("xyz".data) [] 0 = (true, [], []) :=
  ⟨by decide,
    (claim_C9_parse_keyframe_block_contract [] ("k".data) ("xyz".data) [] 0).2.2
      (by decide) rfl⟩

theorem nearTime_self (t : ℚ) : nearTime t t = true := by
  simp only [nearTime, sub_self, ratAbs, decide_eq_true_eq]
  norm_num

/-- When no existing block is within tolerance, the merge loop appends a
fresh block holding exactly the imported declarations. -/
theorem mergeKeyframeSelector_not_near (props : PropsDict) (bs : List KeyframeBlock)
    (t : ℚ) (h : ∀ b ∈ bs, nearTime b.normalized_time t = false) :
    mergeKeyframeSelector props bs t = bs ++ [⟨t, importDict [] props⟩] := by
  induction bs with
  | nil => rfl
  | cons b rest ih =>
    have hb := h b (List.mem_cons_self b rest)
    simp only [mergeKeyframeSelector, hb, Bool.false_eq_true, if_false, List.cons_append,
      List.cons.injEq, true_and]
    exact ih (fun x hx => h x (List.mem_cons_of_mem b hx))

/-- When the first block within tolerance sits after a prefix of
non-matching blocks, the merge loop keeps that block's time and replaces
its dictionary with exactly the imported declarations. -/
theorem mergeKeyframeSelector_first_near (props : PropsDict) (bs : List KeyframeBlock)
    (c : KeyframeBlock) (cs : List KeyframeBlock) (t : ℚ)
    (h : ∀ b ∈ bs, nearTime b.normalized_time t = false)
    (hc : nearTime c.normalized_time t = true) :
    mergeKeyframeSelector props (bs ++ c :: cs) t =
      bs ++ ⟨c.normalized_time, importDict [] props⟩ :: cs := by
  induction bs with
  | nil => simp [mergeKeyframeSelector, hc]
  | cons b rest ih =>
    have hb := h b (List.mem_cons_self b rest)
    simp only [List.cons_append, mergeKeyframeSelector, hb, Bool.false_eq_true, if_false,
      List.cons.injEq, true_and]
    exact ih (fun x hx => h x (List.mem_cons_of_mem b hx))

theorem kfSet_cons_ne {e : List Char × Keyframes} {k : List Char} {t : KeyframesMap}
    (v : Keyframes) (he : ¬ e.1 = k) : kfSet (e :: t) k v = e :: kfSet t k v := by
  by_cases ht : (t.any fun x => decide (x.1 = k)) = true
  · simp [kfSet, he, ht]
  · simp [kfSet, he, ht]

theorem kfFind_cons_ne {e : List Char × Keyframes} {k : List Char} {t : KeyframesMap}
    (he : ¬ e.1 = k) : kfFind (e :: t) k = kfFind t k := by
  have h : List.find? (fun x => decide (x.1 = k)) (e :: t) =
      List.find? (fun x => decide (x.1 = k)) t :=
    List.find?_cons_of_neg t (by simpa using he)
  simp only [kfFind, h]

theorem kfFind_kfSet (m : KeyframesMap) (k : List Char) (v : Keyframes) :
    kfFind (kfSet m k v) k = v := by
  induction m with
  | nil => simp [kfFind, kfSet, List.find?]
  | cons e t ih =>
    by_cases he : e.1 = k
    · simp [kfSet, kfFind, List.any_cons, he, List.find?]
    · rw [kfSet_cons_ne v he, kfFind_cons_ne he]
      exact ih

theorem kfFind_postprocess (m : KeyframesMap) (k : List Char) :
    kfFind (postprocessKeyframes m) k = postprocessSeq (kfFind m k) := by
  induction m with
  | nil => rfl
  | cons e t ih =>
    have hpost : postprocessKeyframes (e :: t) =
        (e.1, postprocessSeq e.2) :: postprocessKeyframes t := rfl
    by_cases he : e.1 = k
    · simp [hpost, kfFind, List.find?, he]
    · rw [hpost, kfFind_cons_ne (by simpa using he), kfFind_cons_ne he]
      exact ih

/-- Evaluation of `ParseKeyframeBlock` on the success path with a single
parsed time selector. -/
theorem parseKeyframeBlock_eval (m : KeyframesMap) (id r : List Char)
    (p : PropsDict) (l : Nat) (t : ℚ)
    (hid : isValidIdentifier id = true) (hp : ¬ p.length = 0)
    (hr : ruleValues r = [t]) :
    parseKeyframeBlock m id r p l =
      (true, kfSet m id ⟨mergeKeyframeSelector p (kfFind m id).blocks t,
        (kfFind m id).property_names⟩, []) := by
  unfold parseKeyframeBlock
  rw [if_neg (by simp [hid])]
  rw [if_neg hp]
  simp only [hr, List.isEmpty_cons, Bool.false_eq_true, if_false, List.foldl_cons,
    List.foldl_nil]

/-- The post-processed blocks of a sequence are a permutation of its
blocks (they are its stable sort by time). -/
theorem postprocessSeq_blocks_perm (kf : Keyframes) :
    (postprocessSeq kf).blocks.Perm kf.blocks :=
  List.perm_insertionSort timeLE kf.blocks

/-- C3: within one named sequence a duplicated time offset keeps a single
block whose dictionary is wholly replaced by the most recently parsed
declarations.  Merging a rule list that yields one offset `t` twice —
first with declarations `p1`, then with `p2` — into a sequence that had
no block near `t` leaves exactly one block within tolerance of `t`, and
it holds exactly the freshly imported `p2` (no trace of `p1`: replacement,
not union); that same single block remains after post-processing. -/
theorem claim_C3_duplicate_keyframe_last_writer_wins
    (m : KeyframesMap) (id r : List Char) (p1 p2 : PropsDict) (t : ℚ) (l1 l2 : Nat)
    (hid : isValidIdentifier id = true) (hp1 : p1 ≠ []) (hp2 : p2 ≠ [])
    (hr : ruleValues r = [t])
    (hnone : ∀ b ∈ (kfFind m id).blocks, nearTime b.normalized_time t = false) :
    ((kfFind (parseKeyframeBlock (parseKeyframeBlock m id r p1 l1).2.1 id r p2 l2).2.1
        id).blocks.filter (fun b => nearTime b.normalized_time t) =
      [⟨t, importDict [] p2⟩]) ∧
    ((kfFind (postprocessKeyframes
          (parseKeyframeBlock (parseKeyframeBlock m id r p1 l1).2.1 id r p2 l2).2.1)
        id).blocks.filter (fun b => nearTime b.normalized_time t) =
      [⟨t, importDict [] p2⟩]) := by
  have hl1 : ¬ p1.length = 0 := by simpa [List.length_eq_zero] using hp1
  have hl2 : ¬ p2.length = 0 := by simpa [List.length_eq_zero] using hp2
  have h1 := parseKeyframeBlock_eval m id r p1 l1 t hid hl1 hr
  rw [mergeKeyframeSelector_not_near p1 _ t hnone] at h1
  have hfind1 : kfFind (parseKeyframeBlock m id r p1 l1).2.1 id =
      ⟨(kfFind m id).blocks ++ [⟨t, importDict [] p1⟩],
        (kfFind m id).property_names⟩ := by
    rw [h1]
    exact kfFind_kfSet ..
  have h2 := parseKeyframeBlock_eval (parseKeyframeBlock m id r p1 l1).2.1 id r p2 l2 t
    hid hl2 hr
  rw [hfind1] at h2
  have hmerge2 : mergeKeyframeSelector p2
      ((kfFind m id).blocks ++ [⟨t, importDict [] p1⟩]) t =
      (kfFind m id).blocks ++ [⟨t, importDict [] p2⟩] :=
    mergeKeyframeSelector_first_near p2 (kfFind m id).blocks ⟨t, importDict [] p1⟩ [] t
      hnone (nearTime_self t)
  rw [hmerge2] at h2
  have hfind2 : kfFind
      (parseKeyframeBlock (parseKeyframeBlock m id r p1 l1).2.1 id r p2 l2).2.1 id =
      ⟨(kfFind m id).blocks ++ [⟨t, importDict [] p2⟩],
        (kfFind m id).property_names⟩ := by
    rw [h2]
    exact kfFind_kfSet ..
  have hfilter : ((kfFind m id).blocks ++
      [(⟨t, importDict [] p2⟩ : KeyframeBlock)]).filter
        (fun b => nearTime b.normalized_time t) = [⟨t, importDict [] p2⟩] := by
    rw [List.filter_append]
    rw [List.filter_eq_nil_iff.mpr (fun b hb => by simp [hnone b hb])]
    simp [List.filter, nearTime_self]
  constructor
  · rw [hfind2, hfilter]
  · rw [kfFind_postprocess, hfind2]
    have hperm := (postprocessSeq_blocks_perm
      ⟨(kfFind m id).blocks ++ [(⟨t, importDict [] p2⟩ : KeyframeBlock)],
        (kfFind m id).property_names⟩).filter (fun b => nearTime b.normalized_time t)
    rw [hfilter] at hperm
    exact List.perm_singleton.mp hperm

/-- C3 witness: starting from the empty map, the rule text `from`
(offset 0) merged twice — first with dictionary `a:1`, then `b:2` —
leaves exactly one block at offset 0, holding exactly `b:2`. -/
theorem claim_C3_duplicate_keyframe_last_writer_wins_witness :
    ruleValues ("from".data) = [0] ∧
    ((kfFind (parseKeyframeBlock
          (parseKeyframeBlock [] ("k".data) ("from".data) [("a".data, "1".data)] 0).2.1
          ("k".data) ("from".data) [("b".data, "2".data)] 0).2.1
        ("k".data)).blocks.filter (fun b => nearTime b.normalized_time 0) =
      [({ normalized_time := 0,
          properties := importDict [] [("b".data, "2".data)] } : KeyframeBlock)]) := by
  have h := claim_C3_duplicate_keyframe_last_writer_wins [] ("k".data) ("from".data)
    [("a".data, "1".data)] [("b".data, "2".data)] 0 0 0
    (by decide) (by decide) (by decide) (by decide) (by simp [kfFind, List.find?])
  exact ⟨by decide, h.1⟩

/-- Every value the time-selector loop pushes lies in `[0, 1]`: `from`
and `to` push the endpoints, and the percentage branch is guarded by
`0 ≤ value ≤ 100` before scaling by `1/100`. -/
theorem ruleValue_bounds {r : List Char} {v : ℚ} (h : ruleValue r = some v) :
    0 ≤ v ∧ v ≤ 1 := by
  simp only [ruleValue] at h
  by_cases h1 : r.map charToLower = "from".data
  · rw [if_pos h1] at h
    obtain rfl : (0 : ℚ) = v := Option.some.inj h
    norm_num
  · rw [if_neg h1] at h
    by_cases h2 : r.map charToLower = "to".data
    · rw [if_pos h2] at h
      obtain rfl : (1 : ℚ) = v := Option.some.inj h
      norm_num
    · rw [if_neg h2] at h
      cases hp : parsePercent (r.map charToLower) with
      | none => rw [hp] at h; exact absurd h (by simp)
      | some p =>
        rw [hp] at h
        simp only at h
        split at h
        · next hc =>
          obtain rfl : (1 : ℚ) / 100 * p = v := Option.some.inj h
          constructor
          · have := hc.1
            positivity
          · have := hc.2
            linarith
        · exact absurd h (by simp)

/-- A value parsed by the percentage branch requires a `'%'` somewhere in
the selector text. -/
theorem parsePercent_has_percent {s : List Char} {v : ℚ}
    (h : parsePercent s = some v) : ( '%' : Char) ∈ s := by
  simp only [parsePercent] at h
  cases hs : scanFloat s with
  | none => rw [hs] at h; exact absurd h (by simp)
  | some vk =>
    rw [hs] at h
    simp only at h
    cases hd : s.drop vk.2 with
    | nil => rw [hd] at h; exact absurd h (by simp)
    | cons c t =>
      rw [hd] at h
      simp only at h
      split at h
      · next hc =>
        subst hc
        exact List.drop_subset vk.2 s (hd ▸ List.mem_cons_self _ t)
      · exact absurd h (by simp)

/-- The merge loop preserves any predicate on block times that holds for
the existing blocks and the merged selector. -/
theorem mergeKeyframeSelector_time_pred (P : ℚ → Prop) (props : PropsDict)
    (bs : List KeyframeBlock) (t : ℚ)
    (hbs : ∀ b ∈ bs, P b.normalized_time) (ht : P t) :
    ∀ b ∈ mergeKeyframeSelector props bs t, P b.normalized_time := by
  induction bs with
  | nil =>
    intro b hb
    simp only [mergeKeyframeSelector, List.mem_singleton] at hb
    subst hb
    exact ht
  | cons c cs ih =>
    intro b hb
    simp only [mergeKeyframeSelector] at hb
    split at hb
    · rcases List.mem_cons.mp hb with hb | hb
      · rw [hb]
        exact hbs c (List.mem_cons_self c cs)
      · exact hbs b (List.mem_cons_of_mem c hb)
    · rcases List.mem_cons.mp hb with hb | hb
      · rw [hb]
        exact hbs c (List.mem_cons_self c cs)
      · exact ih (fun x hx => hbs x (List.mem_cons_of_mem c hx)) b hb

/-- Folding the merge loop over a list of selectors preserves any time
predicate holding of the initial blocks and of every selector. -/
theorem foldl_merge_time_pred (P : ℚ → Prop) (props : PropsDict) :
    ∀ (ts : List ℚ) (bs : List KeyframeBlock),
      (∀ b ∈ bs, P b.normalized_time) → (∀ t ∈ ts, P t) →
      ∀ b ∈ ts.foldl (mergeKeyframeSelector props) bs, P b.normalized_time := by
  intro ts
  induction ts with
  | nil => intro bs hbs _ b hb; exact hbs b hb
  | cons t ts ih =>
    intro bs hbs hts b hb
    rw [List.foldl_cons] at hb
    exact ih (mergeKeyframeSelector props bs t)
      (mergeKeyframeSelector_time_pred P props bs t hbs (hts t (List.mem_cons_self t ts)))
      (fun x hx => hts x (List.mem_cons_of_mem t hx)) b hb

/-- All blocks of all sequences of a keyframes map. -/
def allKfBlocks (m : KeyframesMap) : List KeyframeBlock :=
  (m.map (fun e => e.2.blocks)).flatten

theorem kfFind_blocks_sub (m : KeyframesMap) (k : List Char) :
    ∀ b ∈ (kfFind m k).blocks, b ∈ allKfBlocks m := by
  intro b hb
  unfold kfFind at hb
  cases hf : m.find? (fun e => decide (e.1 = k)) with
  | none => rw [hf] at hb; simp at hb
  | some e =>
    rw [hf] at hb
    simp only at hb
    have he : e ∈ m := List.mem_of_find?_eq_some hf
    exact List.mem_flatten.mpr ⟨e.2.blocks, List.mem_map.mpr ⟨e, he, rfl⟩, hb⟩

theorem allKfBlocks_kfSet {b : KeyframeBlock} (m : KeyframesMap) (k : List Char)
    (v : Keyframes) (hb : b ∈ allKfBlocks (kfSet m k v)) :
    b ∈ v.blocks ∨ b ∈ allKfBlocks m := by
  unfold kfSet at hb
  split at hb
  · simp only [allKfBlocks, List.map_map, List.mem_flatten, List.mem_map,
      Function.comp] at hb
    obtain ⟨l, ⟨e, he, hl⟩, hbl⟩ := hb
    by_cases hek : e.1 = k
    · rw [if_pos hek] at hl
      subst hl
      exact Or.inl hbl
    · rw [if_neg hek] at hl
      subst hl
      exact Or.inr (List.mem_flatten.mpr ⟨e.2.blocks, List.mem_map.mpr ⟨e, he, rfl⟩, hbl⟩)
  · simp only [allKfBlocks, List.map_append, List.flatten_append, List.mem_append] at hb
    rcases hb with hb | hb
    · exact Or.inr hb
    · simp only [List.map_cons, List.map_nil, List.flatten_cons, List.flatten_nil,
        List.append_nil] at hb
      exact Or.inl hb

/-- C7 counterexample: the claim says a time selector outside the shapes
`from` / `to` / a percentage contributes no rule value, but `50%x` — a
percentage followed by trailing garbage — contributes `0.5`: the source's
`sscanf("%f%%%n")` ignores everything after the matched `'%'`. -/
theorem claim_C7_counterexample : ruleValue ("50%x".data) = some ((1 : ℚ) / 2) := by
  have h1 : scanFloat ("50%x".data) = some (50, 2) := by
    simp [scanFloat, List.takeWhile, digitsToNat]
  have h2 : ("50%x".data).map charToLower = "50%x".data := by decide
  have h3 : parsePercent ("50%x".data) = some 50 := by
    simp [parsePercent, h1, List.drop]
  simp only [ruleValue, h2, h3]
  rw [if_neg (by decide), if_neg (by decide)]
  norm_num

/-- C7 (amended): every normalized time stored in a `KeyframeBlock` lies
in `[0, 1]`.  `from` maps to 0, `to` maps to 1, any selector value the
loop pushes lies in `[0, 1]`, and a selector with no `'%'` at all (after
lowercasing) that is not `from`/`to` — in particular a bare number —
contributes nothing.  (A percentage prefix with `0 ≤ p ≤ 100` contributes
`p/100` even when trailing characters follow the `'%'`; out-of-range
percentages are rejected by the guard.)  Merging any keyframe block into
a map whose blocks all lie in `[0, 1]` preserves that invariant. -/
theorem claim_C7_normalized_times_unit_interval (m : KeyframesMap)
    (id r : List Char) (props : PropsDict) (line : Nat)
    (h : ∀ b ∈ allKfBlocks m, 0 ≤ b.normalized_time ∧ b.normalized_time ≤ 1) :
    (ruleValue ("from".data) = some 0) ∧
    (ruleValue ("to".data) = some 1) ∧
    (∀ s v, ruleValue s = some v → 0 ≤ v ∧ v ≤ 1) ∧
    (∀ s, ( '%' : Char) ∉ s.map charToLower → s.map charToLower ≠ "from".data →
      s.map charToLower ≠ "to".data → ruleValue s = none) ∧
    (∀ b ∈ allKfBlocks (parseKeyframeBlock m id r props line).2.1,
      0 ≤ b.normalized_time ∧ b.normalized_time ≤ 1) := by
  refine ⟨by decide, by decide, fun s v hv => ruleValue_bounds hv, ?_, ?_⟩
  · intro s hpc hfrom hto
    simp only [ruleValue, if_neg hfrom, if_neg hto]
    cases hp : parsePercent (s.map charToLower) with
    | none => simp
    | some p => exact absurd (parsePercent_has_percent hp) hpc
  · intro b hb
    unfold parseKeyframeBlock at hb
    split at hb
    · exact h b hb
    · split at hb
      · exact h b hb
      · simp only at hb
        split at hb
        · exact h b hb
        · simp only at hb
          rcases allKfBlocks_kfSet m id _ hb with hb | hb
          · refine foldl_merge_time_pred (fun q => 0 ≤ q ∧ q ≤ 1) props
              (ruleValues r) (kfFind m id).blocks ?_ ?_ b hb
            · exact fun x hx => h x (kfFind_blocks_sub m id x hx)
            · intro x hx
              obtain ⟨s, -, hs⟩ := List.mem_filterMap.mp hx
              exact ruleValue_bounds hs
          · exact h b hb

/-- C7 witness: the invariant instantiated on the empty map with the
selector `from`, plus the endpoint mappings. -/
theorem claim_C7_normalized_times_unit_interval_witness :
    ruleValue ("from".data) = some 0 ∧
    ∀ b ∈ allKfBlocks
        (parseKeyframeBlock [] ("k".data) ("from".data) [("a".data, "1".data)] 0).2.1,
      0 ≤ b.normalized_time ∧ b.normalized_time ≤ 1 := by
  have h := claim_C7_normalized_times_unit_interval [] ("k".data) ("from".data)
    [("a".data, "1".data)] 0 (by simp [allKfBlocks])
  exact ⟨h.1, h.2.2.2.2⟩

theorem mem_of_mem_uniqueAdjacentFrom {α} [DecidableEq α] {x : α} :
    ∀ (l : List α) (a : α), x ∈ uniqueAdjacentFrom a l → x ∈ l := by
  intro l
  induction l with
  | nil => intro a h; simp [uniqueAdjacentFrom] at h
  | cons b rest ih =>
    intro a h
    simp only [uniqueAdjacentFrom] at h
    split at h
    · exact List.mem_cons_of_mem b (ih a h)
    · rcases List.mem_cons.mp h with h | h
      · rw [h]; exact List.mem_cons_self b rest
      · exact List.mem_cons_of_mem b (ih b h)

theorem mem_cons_uniqueAdjacentFrom {α} [DecidableEq α] {x : α} :
    ∀ (l : List α) (a : α), x ∈ a :: l → x ∈ a :: uniqueAdjacentFrom a l := by
  intro l
  induction l with
  | nil => intro a h; simpa [uniqueAdjacentFrom] using h
  | cons b rest ih =>
    intro a h
    simp only [uniqueAdjacentFrom]
    split
    · next hab =>
      subst hab
      rcases List.mem_cons.mp h with h | h
      · rw [h]; exact List.mem_cons_self a _
      · exact ih a (List.mem_cons.mpr (List.mem_cons.mp h))
    · rcases List.mem_cons.mp h with h | h
      · rw [h]; exact List.mem_cons_self a _
      · exact List.mem_cons_of_mem a (ih b h)

theorem uniqueAdjacent_mem {α} [DecidableEq α] (x : α) (l : List α) :
    x ∈ uniqueAdjacent l ↔ x ∈ l := by
  cases l with
  | nil => simp [uniqueAdjacent]
  | cons a rest =>
    constructor
    · intro h
      simp only [uniqueAdjacent] at h
      rcases List.mem_cons.mp h with h | h
      · rw [h]; exact List.mem_cons_self a rest
      · exact List.mem_cons_of_mem a (mem_of_mem_uniqueAdjacentFrom rest a h)
    · exact mem_cons_uniqueAdjacentFrom rest a

theorem uniqueAdjacentFrom_pairwise {α} [DecidableEq α] [LinearOrder α] :
    ∀ (l : List α) (a : α), (a :: l).Pairwise (· ≤ ·) →
      (a :: uniqueAdjacentFrom a l).Pairwise (· < ·) := by
  intro l
  induction l with
  | nil => intro a _; simp [uniqueAdjacentFrom]
  | cons b rest ih =>
    intro a h
    have ha := List.pairwise_cons.mp h
    have htail := ha.2
    have hb := List.pairwise_cons.mp htail
    simp only [uniqueAdjacentFrom]
    split
    · next hab =>
      subst hab
      refine ih a (List.pairwise_cons.mpr ⟨?_, hb.2⟩)
      exact fun x hx => ha.1 x (List.mem_cons_of_mem a hx)
    · next hab =>
      have haltb : a < b := lt_of_le_of_ne (ha.1 b (List.mem_cons_self b rest)) hab
      have hrest := ih b htail
      refine List.pairwise_cons.mpr ⟨?_, hrest⟩
      intro x hx
      rcases List.mem_cons.mp hx with hx | hx
      · rw [hx]; exact haltb
      · exact lt_of_lt_of_le haltb
          (hb.1 x (mem_of_mem_uniqueAdjacentFrom rest b hx))

theorem uniqueAdjacent_pairwise {α} [DecidableEq α] [LinearOrder α] (l : List α)
    (h : l.Pairwise (· ≤ ·)) : (uniqueAdjacent l).Pairwise (· < ·) := by
  cases l with
  | nil => simp [uniqueAdjacent]
  | cons a rest => exact uniqueAdjacentFrom_pairwise rest a h

/-- Two sorted permutations of the same blocks with pairwise-distinct
times are equal: with the duplicate-offset merge performed at insertion,
the result of the (unstable) `std::sort` of `PostprocessKeyframes` is
the unique sorted arrangement, the same one a stable sort produces. -/
theorem sorted_blocks_unique_of_distinct :
    ∀ (l1 l2 : List KeyframeBlock), l1.Perm l2 → l1.Sorted timeLE →
      l2.Sorted timeLE →
      l1.Pairwise (fun x y => x.normalized_time ≠ y.normalized_time) → l1 = l2 := by
  intro l1
  induction l1 with
  | nil => intro l2 hp _ _ _; exact List.Perm.nil_eq hp
  | cons a t1 ih =>
    intro l2 hp h1 h2 hd
    cases l2 with
    | nil => exact absurd hp.symm (by simp)
    | cons b t2 =>
      have hab : a = b := by
        have hbmem : b ∈ a :: t1 := hp.mem_iff.mpr (List.mem_cons_self b t2)
        have hamem : a ∈ b :: t2 := hp.mem_iff.mp (List.mem_cons_self a t1)
        rcases List.mem_cons.mp hbmem with hba | hba
        · exact hba.symm
        · have h1' : timeLE a b := (List.pairwise_cons.mp h1).1 b hba
          rcases List.mem_cons.mp hamem with hba2 | hba2
          · exact hba2
          · have h2' : timeLE b a := (List.pairwise_cons.mp h2).1 a hba2
            exact absurd (le_antisymm h1' h2')
              ((List.pairwise_cons.mp hd).1 b hba)
      subst hab
      have htails : t1.Perm t2 := (List.perm_cons a).mp hp
      rw [ih t2 htails (List.pairwise_cons.mp h1).2 (List.pairwise_cons.mp h2).2
        (List.pairwise_cons.mp hd).2]

theorem postprocessSeq_property_names (k : Keyframes) :
    (postprocessSeq k).property_names =
      uniqueAdjacent ((k.property_names ++
        ((k.blocks.insertionSort timeLE).map
          (fun b => b.properties.map Prod.fst)).flatten).insertionSort nameLE) := rfl

/-- C5: post-processing leaves every named sequence with its blocks
sorted ascending by normalized time — and, since duplicate times are
merged away at insertion, the sorted arrangement is unique, so the result
coincides with that of a stable sort — and with `property_names` exactly
the sorted, duplicate-free collection of the property names appearing in
any block of the sequence. -/
theorem claim_C5_postprocess_canonicalizes (kfs : KeyframesMap)
    (e : List Char × Keyframes) (he : e ∈ kfs) (hpn : e.2.property_names = []) :
    ((e.1, postprocessSeq e.2) ∈ postprocessKeyframes kfs) ∧
    ((postprocessSeq e.2).blocks.Perm e.2.blocks) ∧
    ((postprocessSeq e.2).blocks.Sorted timeLE) ∧
    (∀ l2, l2.Perm e.2.blocks → l2.Sorted timeLE →
      e.2.blocks.Pairwise (fun x y => x.normalized_time ≠ y.normalized_time) →
      l2 = (postprocessSeq e.2).blocks) ∧
    ((postprocessSeq e.2).property_names.Pairwise (fun a b => a < b)) ∧
    (∀ nm, nm ∈ (postprocessSeq e.2).property_names ↔
      ∃ b ∈ e.2.blocks, nm ∈ b.properties.map Prod.fst) := by
  refine ⟨List.mem_map.mpr ⟨e, he, rfl⟩, postprocessSeq_blocks_perm e.2,
    List.sorted_insertionSort timeLE e.2.blocks, ?_, ?_, ?_⟩
  · intro l2 hperm hsort hdist
    refine sorted_blocks_unique_of_distinct l2 (postprocessSeq e.2).blocks
      (hperm.trans (postprocessSeq_blocks_perm e.2).symm) hsort
      (List.sorted_insertionSort timeLE e.2.blocks) ?_
    exact (List.Perm.pairwise_iff (fun h => Ne.symm h) hperm).mpr hdist
  · rw [postprocessSeq_property_names]
    exact uniqueAdjacent_pairwise _ (List.sorted_insertionSort nameLE _)
  · intro nm
    rw [postprocessSeq_property_names, uniqueAdjacent_mem,
      (List.perm_insertionSort nameLE _).mem_iff, hpn]
    simp only [List.nil_append]
    constructor
    · intro hmem
      obtain ⟨l, hl, hnm⟩ := List.mem_flatten.mp hmem
      obtain ⟨b, hb, rfl⟩ := List.mem_map.mp hl
      exact ⟨b, (postprocessSeq_blocks_perm e.2).subset hb, hnm⟩
    · rintro ⟨b, hb, hnm⟩
      exact List.mem_flatten.mpr ⟨b.properties.map Prod.fst,
        List.mem_map.mpr ⟨b, (postprocessSeq_blocks_perm e.2).symm.subset hb, rfl⟩, hnm⟩

/-- C5 witness: a two-block sequence, entered out of order with times 1
and 0 and two property names, applied to the canonicalization theorem. -/
theorem claim_C5_postprocess_canonicalizes_witness :
    (("k".data, postprocessSeq ⟨[⟨1, [("b".data, "2".data)]⟩, ⟨0, [("a".data, "1".data)]⟩], []⟩) ∈
      postprocessKeyframes
        [("k".data, ⟨[⟨1, [("b".data, "2".data)]⟩, ⟨0, [("a".data, "1".data)]⟩], []⟩)]) ∧
    ((postprocessSeq
        (⟨[⟨1, [("b".data, "2".data)]⟩, ⟨0, [("a".data, "1".data)]⟩], []⟩ : Keyframes)).blocks.Sorted
      timeLE) ∧
    (∀ nm, nm ∈ (postprocessSeq
        (⟨[⟨1, [("b".data, "2".data)]⟩, ⟨0, [("a".data, "1".data)]⟩], []⟩ : Keyframes)).property_names ↔
      ∃ b ∈ [(⟨1, [("b".data, "2".data)]⟩ : KeyframeBlock), ⟨0, [("a".data, "1".data)]⟩],
        nm ∈ b.properties.map Prod.fst) := by
  have h := claim_C5_postprocess_canonicalizes
    [("k".data, ⟨[⟨1, [("b".data, "2".data)]⟩, ⟨0, [("a".data, "1".data)]⟩], []⟩)]
    ("k".data, ⟨[⟨1, [("b".data, "2".data)]⟩, ⟨0, [("a".data, "1".data)]⟩], []⟩)
    (List.mem_singleton.mpr rfl) rfl
  exact ⟨h.1, h.2.2.1, h.2.2.2.2.2⟩

/-- Two compound selectors that differ only in the intra-compound order
of their classes, pseudo-classes and structural-pseudo-classes: same tag,
same id, and the three component lists permutations of one another. -/
def compoundEquiv (isStruct : List Char → Bool) (a b : List Char) : Prop :=
  (compoundParts isStruct a).tag = (compoundParts isStruct b).tag ∧
  (compoundParts isStruct a).id = (compoundParts isStruct b).id ∧
  (compoundParts isStruct a).classes.Perm (compoundParts isStruct b).classes ∧
  (compoundParts isStruct a).pseudo_classes.Perm
    (compoundParts isStruct b).pseudo_classes ∧
  (compoundParts isStruct a).structural_pseudo_classes.Perm
    (compoundParts isStruct b).structural_pseudo_classes

/-- Sorting is invariant under permutation of the input: the sorted
permutation of a list is unique, because the lexicographic order on names
is antisymmetric. -/
theorem insertionSort_eq_of_perm {l1 l2 : List (List Char)} (h : l1.Perm l2) :
    l1.insertionSort nameLE = l2.insertionSort nameLE := by
  refine List.eq_of_perm_of_sorted ?_ (List.sorted_insertionSort nameLE l1)
    (List.sorted_insertionSort nameLE l2)
  exact (List.perm_insertionSort nameLE l1).trans
    (h.trans (List.perm_insertionSort nameLE l2).symm)

theorem compoundPath_eq_of_equiv {isStruct : List Char → Bool} {a b : List Char}
    (h : compoundEquiv isStruct a b) :
    compoundPath isStruct a = compoundPath isStruct b := by
  obtain ⟨ht, hid, hc, hp, hs⟩ := h
  simp only [compoundPath, ht, hid, insertionSort_eq_of_perm hc,
    insertionSort_eq_of_perm hp, insertionSort_eq_of_perm hs]

theorem flatMap_congr_forall2 {α β : Type} {f : α → List β} {l1 l2 : List α}
    (h : List.Forall₂ (fun a b => f a = f b) l1 l2) : l1.flatMap f = l2.flatMap f := by
  induction h with
  | nil => rfl
  | cons hfab _ ih => simp only [List.flatMap_cons, hfab, ih]

/-- C2: selector lists whose compound selectors pairwise differ only in
the intra-compound ordering of classes, pseudo-classes and
structural-pseudo-classes produce the identical descent path — each of
the three lists is sorted before descent, with descent fixed as tag, id,
classes, structural-pseudo-classes, pseudo-classes — so
`ImportProperties` builds the identical tree, with the properties merged
into the same leaf. -/
theorem claim_C2_selector_component_order_irrelevant
    (isStruct : List Char → Bool) (root : STree) (props : PropsDict) (sp : Nat)
    (names1 names2 : List Char)
    (h : List.Forall₂ (compoundEquiv isStruct)
      (expandString ' ' names1) (expandString ' ' names2)) :
    importProperties isStruct root names1 props sp =
      importProperties isStruct root names2 props sp := by
  unfold importProperties
  rw [flatMap_congr_forall2 (h.imp (fun _ _ ha => compoundPath_eq_of_equiv ha))]

/-- C2 witness: `.a.b` and `.b.a` are component-order-equivalent and
insert `color: red` into the identical tree. -/
theorem claim_C2_selector_component_order_irrelevant_witness :
    compoundEquiv (fun _ => false) (".a.b".data) (".b.a".data) ∧
    importProperties (fun _ => false) (STree.mk [] []) (".a.b".data)
        [("color".data, "red".data)] 0 =
      importProperties (fun _ => false) (STree.mk [] []) (".b.a".data)
        [("color".data, "red".data)] 0 := by
  have heq : compoundEquiv (fun _ => false) (".a.b".data) (".b.a".data) := by
    refine ⟨by decide, by decide, ?_, by decide, by decide⟩
    decide
  exact ⟨heq, claim_C2_selector_component_order_irrelevant (fun _ => false)
    (STree.mk [] []) [("color".data, "red".data)] 0 (".a.b".data) (".b.a".data)
    (List.Forall₂.cons heq List.Forall₂.nil)⟩

/-- Unfolding `parseLoop` at a `Global`-state `'{'` token: the properties
are read, the selector list expanded and imported, and the rule count
incremented — unconditionally, since `ReadProperties` never fails. -/
theorem parseLoop_global_brace (pd : PDecl) (isStruct : List Char → Bool)
    (lineEnd : Nat) (ident : List Char) (cnt : Nat) (tree : STree)
    (kfs : KeyframesMap) (log2 : List Warning) (L : List (Char × Nat))
    (pre : List Char) (n : Nat) (rest : List (Char × Nat))
    (hft2 : findTokenL [ '{' , '@' , '}' ] L = some (pre, '{' , n, rest)) :
    parseLoop pd isStruct lineEnd PState.Global ident cnt tree kfs log2 L =
      parseLoop pd isStruct lineEnd PState.Global ident (cnt + 1)
        ((expandString ',' pre).foldl
          (fun t nm => importProperties isStruct t nm
            (readPropsL pd lineEnd RPState.NAME [] [] (Char.ofNat 0) [] log2 rest).2.1
            cnt) tree)
        kfs
        (readPropsL pd lineEnd RPState.NAME [] [] (Char.ofNat 0) [] log2 rest).2.2.1
        (readPropsL pd lineEnd RPState.NAME [] [] (Char.ofNat 0) [] log2
          rest).2.2.2.1 := by
  conv_lhs => rw [parseLoop]
  split
  · next heq =>
    rw [hft2] at heq
    exact absurd heq (by simp)
  · next pre2 tok2 n2 rest2 heq =>
    rw [hft2] at heq
    simp only [Option.some.injEq, Prod.mk.injEq] at heq
    obtain ⟨h1, h2, h3, h4⟩ := heq
    subst h1
    subst h2
    subst h3
    subst h4
    simp only [if_pos rfl, readPropsL_true, if_true]

/-- Unfolding `parseLoop` when the stream holds no further token: the
accumulated results are returned as they stand. -/
theorem parseLoop_exhausted (pd : PDecl) (isStruct : List Char → Bool)
    (lineEnd : Nat) (st : PState) (ident : List Char) (cnt : Nat) (tree : STree)
    (kfs : KeyframesMap) (log2 : List Warning) (L : List (Char × Nat))
    (hft2 : findTokenL [ '{' , '@' , '}' ] L = none) :
    parseLoop pd isStruct lineEnd st ident cnt tree kfs log2 L =
      (cnt, tree, kfs, log2) := by
  conv_lhs => rw [parseLoop]
  split
  · rfl
  · next pre2 tok2 n2 rest2 heq =>
    rw [hft2] at heq
    exact absurd heq (by simp)

/-- C10: `ReadProperties` returns true on every input stream — both the
`'}'` exits and the stream-exhaustion exit return true, no matter how
many malformed declarations were met — so the branch of `Parse` that
would skip a rule block when `ReadProperties` fails is never taken: a
`'{'`-opened block in the `Global` state always proceeds to the selector
expansion, the tree import, and the `rule_count` increment. -/
theorem claim_C10_read_properties_always_true (pd : PDecl) (lineEnd : Nat)
    (st : RPState) (name value : List Char) (prev : Char) (props : PropsDict)
    (log : List Warning) (input : List (Char × Nat)) :
    ((readPropsL pd lineEnd st name value prev props log input).1 = true) ∧
    (∀ (isStruct : List Char → Bool) (ident : List Char) (cnt : Nat) (tree : STree)
      (kfs : KeyframesMap) (log2 : List Warning) (L : List (Char × Nat))
      (pre : List Char) (n : Nat) (rest : List (Char × Nat)),
      findTokenL [ '{' , '@' , '}' ] L = some (pre, '{' , n, rest) →
      parseLoop pd isStruct lineEnd PState.Global ident cnt tree kfs log2 L =
        parseLoop pd isStruct lineEnd PState.Global ident (cnt + 1)
          ((expandString ',' pre).foldl
            (fun t nm => importProperties isStruct t nm
              (readPropsL pd lineEnd RPState.NAME [] [] (Char.ofNat 0) [] log2 rest).2.1
              cnt) tree)
          kfs
          (readPropsL pd lineEnd RPState.NAME [] [] (Char.ofNat 0) [] log2 rest).2.2.1
          (readPropsL pd lineEnd RPState.NAME [] [] (Char.ofNat 0) [] log2 rest).2.2.2.1) := by
  refine ⟨readPropsL_true pd lineEnd st name value prev props log input, ?_⟩
  intro isStruct ident cnt tree kfs log2 L pre n rest hft2
  exact parseLoop_global_brace pd isStruct lineEnd ident cnt tree kfs log2 L pre n
    rest hft2

/-- C4: an unexpected token in the `KeyframesIdentifier` or
`KeyframesRules` state logs the invalid-character warning and moves to
the terminal `Invalid` state: the parse returns immediately with the
rule count, tree and keyframes map exactly as already accumulated —
independent of whatever input remains unread after the offending
token. -/
theorem claim_C4_invalid_keyframes_syntax_halts_parse (pd : PDecl)
    (isStruct : List Char → Bool) (lineEnd : Nat) (ident : List Char) (cnt : Nat)
    (tree : STree) (kfs : KeyframesMap) (log : List Warning)
    (L : List (Char × Nat)) (pre : List Char) (tok : Char) (n : Nat)
    (rest : List (Char × Nat))
    (hft2 : findTokenL [ '{' , '@' , '}' ] L = some (pre, tok, n, rest)) :
    (tok ≠ '{' →
      parseLoop pd isStruct lineEnd PState.KeyframesIdentifier ident cnt tree kfs
          log L =
        (cnt, tree, kfs, log ++ [Warning.invalidCharKeyframesIdentifier tok n])) ∧
    (tok ≠ '{' → tok ≠ '}' →
      parseLoop pd isStruct lineEnd PState.KeyframesRules ident cnt tree kfs log L =
        (cnt, tree, kfs, log ++ [Warning.invalidCharKeyframesRules tok n])) := by
  constructor
  · intro h1
    conv_lhs => rw [parseLoop]
    split
    · next heq =>
      rw [hft2] at heq
      exact absurd heq (by simp)
    · next pre2 tok2 n2 rest2 heq =>
      rw [hft2] at heq
      simp only [Option.some.injEq, Prod.mk.injEq] at heq
      obtain ⟨e1, e2, e3, e4⟩ := heq
      subst e1
      subst e2
      subst e3
      subst e4
      simp only []
      rw [if_neg h1]
  · intro h1 h2
    conv_lhs => rw [parseLoop]
    split
    · next heq =>
      rw [hft2] at heq
      exact absurd heq (by simp)
    · next pre2 tok2 n2 rest2 heq =>
      rw [hft2] at heq
      simp only [Option.some.injEq, Prod.mk.injEq] at heq
      obtain ⟨e1, e2, e3, e4⟩ := heq
      subst e1
      subst e2
      subst e3
      subst e4
      simp only []
      rw [if_neg h1, if_neg h2]

/-- C4 witness: from either keyframes state, the token `'@'` (line 0)
found after the prefix of the stream `"@}"` halts the parse at once with
rule count 3, tree, map and earlier warnings untouched, the invalid
character logged, and the remaining `'}'` never read. -/
theorem claim_C4_invalid_keyframes_syntax_halts_parse_witness :
    findTokenL [ '{' , '@' , '}' ] [( '@' , 0), ( '}' , 1)] =
      some ([], '@' , 0, [( '}' , 1)]) ∧
    parseLoop pdRecord (fun _ => false) 9 PState.KeyframesIdentifier [] 3
        (STree.mk [] []) [] [] [( '@' , 0), ( '}' , 1)] =
      (3, STree.mk [] [], [], [Warning.invalidCharKeyframesIdentifier '@' 0]) ∧
    parseLoop pdRecord (fun _ => false) 9 PState.KeyframesRules [] 3
        (STree.mk [] []) [] [] [( '@' , 0), ( '}' , 1)] =
      (3, STree.mk [] [], [], [Warning.invalidCharKeyframesRules '@' 0]) := by
  have h := claim_C4_invalid_keyframes_syntax_halts_parse pdRecord (fun _ => false) 9
    [] 3 (STree.mk [] []) [] [] [( '@' , 0), ( '}' , 1)] [] '@' 0 [( '}' , 1)]
    (by decide)
  exact ⟨by decide, by simpa using h.1 (by decide),
    by simpa using h.2 (by decide) (by decide)⟩

/-- C10 witness: on the stream `"{}"` (empty selector list, empty body)
the declaration reader returns true and the `Global` `'{'` branch steps
to the incremented rule count. -/
theorem claim_C10_read_properties_always_true_witness :
    ((readPropsL pdRecord 0 RPState.NAME [] [] (Char.ofNat 0) [] []
        [( '}' , 0)]).1 = true) ∧
    parseLoop pdRecord (fun _ => false) 0 PState.Global [] 0 (STree.mk [] []) [] []
        [( '{' , 0), ( '}' , 0)] =
      parseLoop pdRecord (fun _ => false) 0 PState.Global [] (0 + 1)
        ((expandString ',' []).foldl
          (fun t nm => importProperties (fun _ => false) t nm
            (readPropsL pdRecord 0 RPState.NAME [] [] (Char.ofNat 0) [] []
              [( '}' , 0)]).2.1 0) (STree.mk [] []))
        []
        (readPropsL pdRecord 0 RPState.NAME [] [] (Char.ofNat 0) [] []
          [( '}' , 0)]).2.2.1
        (readPropsL pdRecord 0 RPState.NAME [] [] (Char.ofNat 0) [] []
          [( '}' , 0)]).2.2.2.1 := by
  have h := claim_C10_read_properties_always_true pdRecord 0 RPState.NAME [] []
    (Char.ofNat 0) [] [] [( '}' , 0)]
  exact ⟨h.1, h.2 (fun _ => false) [] 0 (STree.mk [] []) [] []
    [( '{' , 0), ( '}' , 0)] [] 0 [( '}' , 0)] (by decide)⟩

/-- Inside the `Quote` state every character of a quote-free span is
accumulated verbatim into the value (including `';'` and `'}'`, which
have no terminating effect there), the scanner staying in `Quote` with
`previous_character` tracking the last accumulated character. -/
theorem readPropsL_quote_accum (pd : PDecl) (lineEnd : Nat) :
    ∀ (L1 : List (Char × Nat)), (∀ p ∈ L1, p.1 ≠ '"') →
    ∀ (name value : List Char) (prev : Char) (props : PropsDict)
      (log : List Warning) (rest : List (Char × Nat)),
      readPropsL pd lineEnd RPState.QUOTE name value prev props log (L1 ++ rest) =
        readPropsL pd lineEnd RPState.QUOTE name (value ++ L1.map Prod.fst)
          ((L1.map Prod.fst).getLastD prev) props log rest := by
  intro L1
  induction L1 with
  | nil =>
    intro _ name value prev props log rest
    simp [List.getLastD]
  | cons p L1t ih =>
    intro hp name value prev props log rest
    obtain ⟨c, n⟩ := p
    have hc : c ≠ '"' := hp (c, n) (List.mem_cons_self _ L1t)
    have hcq : ¬ (c = '"' ∧ prev ≠ '/') := fun hcc => hc hcc.1
    rw [List.cons_append]
    simp only [readPropsL, if_neg hcq, List.map_cons]
    rw [ih (fun x hx => hp x (List.mem_cons_of_mem _ hx)) name (value ++ [c]) c
      props log rest]
    rw [List.append_assoc, List.singleton_append, List.getLastD_cons]

theorem getLastD_self_or_mem {s : List Char} {d : Char} :
    s.getLastD d = d ∨ s.getLastD d ∈ s := by
  induction s generalizing d with
  | nil => exact Or.inl rfl
  | cons a t ih =>
    rw [List.getLastD_cons]
    rcases @ih a with h | h
    · right
      rw [h]
      exact List.mem_cons_self a t
    · right
      exact List.mem_cons_of_mem a h

/-- C1 counterexample: in the declaration body
`x: "a\";b";}` the quote character escaped with a backslash (per the
claim) in fact terminates the `Quote` state — the code checks for a
preceding `'/'`, not `'\'` — so the declaration is committed at the next
`';'` with the truncated value `"a\"`, and `;b` is not part of the
forwarded value text. -/
theorem claim_C1_counterexample :
    (readPropsL pdRecord 0 RPState.NAME [] [] (Char.ofNat 0) [] []
        ([ 'x' , ':' , ' ' , '"' , 'a' , '\\' , '"' , ';' , 'b' , '"' , ';' , '}' ].map
          (fun c => (c, 0)))).2.1 =
      [("x".data, [ '"' , 'a' , '\\' , '"' ])] ∧
    [ '"' , 'a' , '\\' , '"' ] ≠ [ '"' , 'a' , '\\' , '"' , ';' , 'b' , '"' ] :=
  ⟨by decide, by decide⟩

/-- C1 (amended): in the `Quote` state characters accumulate verbatim
(quote characters included), and a `'"'` that is not immediately preceded
by a forward slash `'/'` — not a backslash — exits back to `Value`;
consequently a declaration body whose quoted value embeds `';'` or `'}'`
(any span without `'"'`, `'/'` or newline) forwards those characters
verbatim to the property-declaration parser and neither terminates the
declaration nor the rule early: reading `content: "<s>";}` forwards
exactly the pair `(content, "<s>")` and consumes up to the closing
`'}'`. -/
theorem claim_C1_quote_state_escape_and_verbatim_values (s : List Char)
    (hq : ( '"' : Char) ∉ s) (hs : ( '/' : Char) ∉ s) (hn : ( '\n' : Char) ∉ s) :
    readPropsL pdRecord 0 RPState.NAME [] [] (Char.ofNat 0) [] []
        ((logicalAux false 0 (("content: \"".data ++ s) ++ "\";\x7d".data)).1) =
      (true, [("content".data, ( '"' :: s) ++ [ '"' ])], [], [], 0) := by
  have hbody_s : ( '/' : Char) ∉ ("content: \"".data ++ s) ++ "\";\x7d".data := by
    simp only [List.mem_append]
    rintro ((h | h) | h)
    · revert h; decide
    · exact hs h
    · revert h; decide
  have hbody_n : ( '\n' : Char) ∉ ("content: \"".data ++ s) ++ "\";\x7d".data := by
    simp only [List.mem_append]
    rintro ((h | h) | h)
    · revert h; decide
    · exact hn h
    · revert h; decide
  rw [logicalAux_clean 0 _ hbody_s hbody_n]
  simp only [List.map_append]
  have hpre : ∀ tail,
      readPropsL pdRecord 0 RPState.NAME [] [] (Char.ofNat 0) [] []
          ((("content: \"".data).map (fun c => (c, 0))) ++ tail) =
        readPropsL pdRecord 0 RPState.QUOTE ("content".data) [ ' ' , '"' ] '"'
          [] [] tail := fun tail => rfl
  rw [List.append_assoc, hpre]
  have hnq : ∀ p ∈ s.map (fun c => (c, 0)), Prod.fst p ≠ '"' := by
    intro p hp
    obtain ⟨c, hc, rfl⟩ := List.mem_map.mp hp
    exact fun he => hq (he ▸ hc)
  rw [readPropsL_quote_accum pdRecord 0 (s.map (fun c => (c, 0))) hnq
    ("content".data) [ ' ' , '"' ] '"' [] [] _]
  have hfst : (s.map (fun c => (c, 0))).map Prod.fst = s := by
    rw [List.map_map]
    have hcomp : (Prod.fst ∘ fun c : Char => ((c, 0) : Char × Nat)) = id := rfl
    rw [hcomp, List.map_id]
  rw [hfst]
  have hprev : s.getLastD '"' ≠ '/' := by
    rcases (getLastD_self_or_mem : s.getLastD '"' = '"' ∨ s.getLastD '"' ∈ s) with h | h
    · rw [h]; decide
    · exact fun hc => hs (hc ▸ h)
  have hstrip2 : stripWhitespace ( ' ' :: '"' :: (s ++ [ '"' ])) =
      '"' :: (s ++ [ '"' ]) := by
    simp [stripWhitespace, List.dropWhile_cons, isSpaceChar, List.reverse_append]
  simp only [List.map_cons, List.map_nil, readPropsL]
  rw [if_pos (And.intro trivial hprev)]
  simp [readPropsL, pdRecord]
  exact ⟨hstrip2, rfl⟩

/-- C1 witness: the quoted value `"a;b}c"` — embedded `';'` and `'}'` —
is forwarded verbatim as the value of `content`, with the read consuming
through the closing `'}'` of the rule. -/
theorem claim_C1_quote_state_escape_and_verbatim_values_witness :
    ( '"' : Char) ∉ ("a;b\x7dc".data) ∧
    readPropsL pdRecord 0 RPState.NAME [] [] (Char.ofNat 0) [] []
        ((logicalAux false 0 (("content: \"".data ++ "a;b\x7dc".data) ++ "\";\x7d".data)).1) =
      (true, [("content".data, ( '"' :: "a;b\x7dc".data) ++ [ '"' ])], [], [], 0) :=
  ⟨by decide, claim_C1_quote_state_escape_and_verbatim_values ("a;b\x7dc".data)
    (by decide) (by decide) (by decide)⟩

/-- C6: parsing `.x { top 1px; }` — the declaration misses its colon —
creates the `Class("x")` leaf (under the always-present empty tag node)
with zero properties, logs exactly one warning (name `top 1px` seen with
no value), leaves the keyframes map empty, and still returns a rule
count of 1: a rule block whose declarations all fail is counted.  The
result is independent of the external property-declaration parser (never
invoked: the malformed declaration dies in the `Name` state) and of the
structural-selector registry (no pseudo-class present). -/
theorem claim_C6_malformed_declaration_rule_still_counted
    (pd : PDecl) (isStruct : List Char → Bool) :
    ((parseStyleSheet pd isStruct (STree.mk [] []) [] (".x \x7b top 1px; \x7d".data)).1 =
      1) ∧
    (lookupPath
        (parseStyleSheet pd isStruct (STree.mk [] []) [] (".x \x7b top 1px; \x7d".data)).2.1
        [(NodeKind.TAG, []), (NodeKind.CLASS, "x".data)] = some (STree.mk [] [])) ∧
    ((parseStyleSheet pd isStruct (STree.mk [] [])
        [] (".x \x7b top 1px; \x7d".data)).2.2.1 = []) ∧
    ((parseStyleSheet pd isStruct (STree.mk [] [])
        [] (".x \x7b top 1px; \x7d".data)).2.2.2 =
      [Warning.nameNoValue ("top 1px".data) 0]) := by
  have hL : logicalAux false 0 (".x \x7b top 1px; \x7d".data) =
      ((".x \x7b top 1px; \x7d".data).map (fun c => (c, 0)), 0) := by decide
  have hft1 : findTokenL [ '{' , '@' , '}' ]
      ((".x \x7b top 1px; \x7d".data).map (fun c => (c, 0))) =
      some (".x ".data, '{' , 0, (" top 1px; \x7d".data).map (fun c => (c, 0))) := by
    decide
  have hend : findTokenL [ '{' , '@' , '}' ]
      ((readPropsL pd 0 RPState.NAME [] [] (Char.ofNat 0) [] []
        ((" top 1px; \x7d".data).map (fun c => (c, 0)))).2.2.2.1) = none := rfl
  have hbig : parseLoop pd isStruct 0 PState.Global [] 0 (STree.mk [] []) [] []
      ((".x \x7b top 1px; \x7d".data).map (fun c => (c, 0))) =
      (1, STree.mk []
        [((NodeKind.TAG, []), STree.mk [] [((NodeKind.CLASS, "x".data), STree.mk [] [])])],
        [], [Warning.nameNoValue ("top 1px".data) 0]) := by
    rw [parseLoop_global_brace pd isStruct 0 [] 0 (STree.mk [] []) [] [] _ _ _ _ hft1]
    rw [parseLoop_exhausted pd isStruct 0 PState.Global [] _ _ _ _ _ hend]
    rfl
  simp only [parseStyleSheet, hL]
  rw [hbig]
  exact ⟨rfl, rfl, rfl, rfl⟩
